import Mathlib

/-!
Verification of the cross-source PPI record reconciliation and merge engine
of `src/bccb/ppi_adapter.py` (class `PPI`).

Modelling conventions:
* Python strings are modelled as `List Char` (named `Str` below) so that
  splitting and joining on the `"|"` separator can be reasoned about by
  structural induction.
* A pandas cell is modelled by `Val`: a string, a float (as a rational), or
  `NaN` (the single missing-value marker; pandas uses one `np.nan` object,
  so a single constructor is faithful, including for `frozenset` members).
* DataFrames are lists of records (structures with one field per column);
  row order is the visible order used by `sort_values`, `groupby(sort=False)`
  and `duplicated()`.
-/

/-- Python strings, as lists of characters. -/
abbrev Str := List Char

/-- A pandas cell: a string, a float (modelled as a rational), or NaN. -/
inductive Val where
  | s (w : Str)
  | num (q : Rat)
  | nan
deriving DecidableEq, Repr

/-- Model of `pd.isna` on a cell. -/
def isNan : Val → Bool
  | .nan => true
  | _ => false

/-- Python float `repr` for the float values that occur in this pipeline.
The scores carried through the merge are integral (STRING combined scores are
integers upcast to float by the outer join), for which `str(x)` is the integer
digits followed by `.0`.  Non-integral rationals never occur in the data; they
are given an arbitrary deterministic rendering. -/
def floatRepr (q : Rat) : Str :=
  if q.den = 1 then (toString q.num).data ++ (".0".data)
  else (toString q.num).data ++ ("/".data) ++ (toString q.den).data

/-- Python `str()` of a cell (`str(np.nan)` is the string `nan`). -/
def strOfVal : Val → Str
  | .s w => w
  | .num q => floatRepr q
  | .nan => "nan".data

/-- Model of Python `split` on the pipe separator (it always yields at
least one part). -/
def splitPipe : Str → List Str
  | [] => [[]]
  | c :: rest =>
    match splitPipe rest with
    | [] => [[]]
    | t :: ts => if c = '|' then [] :: t :: ts else (c :: t) :: ts

/-- Model of the Python pipe join of a list of parts. -/
def joinPipe : List Str → Str
  | [] => []
  | [t] => t
  | t :: ts => t ++ '|' :: joinPipe ts

/-- Deduplication keeping the first occurrence of each element (the order we
fix for iterating a Python `set` built from a list). -/
def dedupF {α : Type} [DecidableEq α] : List α → List α
  | [] => []
  | x :: xs => x :: (dedupF xs).filter (fun y => y ≠ x)

/-- Keep only the first row for each value of `key` (`~duplicated()` on a
computed key column). -/
def keepFirstBy {α β : Type} [DecidableEq β] (key : α → β) : List α → List α
  | [] => []
  | x :: xs => x :: (keepFirstBy key xs).filter (fun y => key y ≠ key x)

/-- First non-NaN value of a list of cells, else NaN.  This is both the
pandas `groupby.aggregate("first")` of a column within one group and the
`x.dropna().tolist()[0] if len(...) > 0 else np.nan` reconciliation lambda
of `merge_all`. -/
def firstNonNan : List Val → Val
  | [] => .nan
  | v :: vs => if isNan v then firstNonNan vs else v

/-- The non-NaN entries of a list of cells, as Python strings
(`[str(e) for e in element.dropna()]`). -/
def dropnaStrs (vs : List Val) : List Str :=
  vs.filterMap (fun v => if isNan v then none else some (strOfVal v))

/-- The `lambda x: "|".join(x.dropna())` applied by `merge_all` to the pair
of source-name columns; on a row where both are NaN it yields the empty
string (not NaN). -/
def dropnaJoin (vs : List Val) : Str :=
  joinPipe (dropnaStrs vs)

/-- Model of `merge_all.merge_pubmed_ids` (`src/bccb/ppi_adapter.py:813`), applied to
a row holding the left and right citation cells: split every non-NaN value on
`"|"`, take the set of tokens, and join it back with `"|"`; NaN when both
cells are NaN. -/
def merge_pubmed_ids (x y : Val) : Val :=
  let es := dropnaStrs [x, y]
  if es.isEmpty then .nan
  else
    let newList := es.flatMap (fun e => if '|' ∈ e then splitPipe e else [e])
    .s (joinPipe (dedupF newList))

/-- Model of `merge_all.float_to_int` (`src/bccb/ppi_adapter.py:830`): truncate the
string form at the first decimal point; other values pass through. -/
def float_to_int (v : Val) : Val :=
  match v with
  | .s w => if '.' ∈ w then .s (w.takeWhile (fun c => c ≠ '.')) else .s w
  | v => v

/-- Model of `series.astype(str)` on one cell: NaN becomes the
literal string `nan`. -/
def astypeStr (v : Val) : Val := .s (strOfVal v)

/-! ### Basic lemmas about the pipe split and join -/

theorem splitPipe_ne_nil (w : Str) : splitPipe w ≠ [] := by
  induction w with
  | nil => simp [splitPipe]
  | cons c rest ih =>
    simp only [splitPipe]
    rcases h : splitPipe rest with _ | ⟨t, ts⟩
    · exact absurd h ih
    · by_cases hc : c = '|' <;> simp [hc]

theorem splitPipe_no_pipe {w : Str} (h : '|' ∉ w) : splitPipe w = [w] := by
  induction w with
  | nil => simp [splitPipe]
  | cons c rest ih =>
    have hc : c ≠ '|' := fun hc => h (hc ▸ List.mem_cons_self c rest)
    have hrest : '|' ∉ rest := fun hr => h (List.mem_cons_of_mem c hr)
    simp [splitPipe, ih hrest, hc]

theorem mem_splitPipe_no_pipe {w t : Str} (ht : t ∈ splitPipe w) : '|' ∉ t := by
  induction w generalizing t with
  | nil =>
    simp only [splitPipe, List.mem_singleton] at ht
    subst ht; simp
  | cons c rest ih =>
    rcases h : splitPipe rest with _ | ⟨u, us⟩
    · exact absurd h (splitPipe_ne_nil rest)
    · simp only [splitPipe, h] at ht
      by_cases hc : c = '|'
      · rw [if_pos hc] at ht
        rcases List.mem_cons.mp ht with h1 | h1
        · subst h1; simp
        · exact ih (h ▸ h1)
      · rw [if_neg hc] at ht
        rcases List.mem_cons.mp ht with h1 | h1
        · subst h1
          intro hm
          rcases List.mem_cons.mp hm with h2 | h2
          · exact hc h2.symm
          · exact ih (h ▸ List.mem_cons_self u us) h2
        · exact ih (h ▸ List.mem_cons_of_mem u h1)

theorem splitPipe_append_pipe (x y : Str) :
    splitPipe (x ++ '|' :: y) = splitPipe x ++ splitPipe y := by
  induction x with
  | nil =>
    simp only [List.nil_append, splitPipe]
    rcases h : splitPipe y with _ | ⟨t, ts⟩
    · exact absurd h (splitPipe_ne_nil y)
    · simp [splitPipe]
  | cons c rest ih =>
    rcases h : splitPipe rest with _ | ⟨t, ts⟩
    · exact absurd h (splitPipe_ne_nil rest)
    · simp only [List.cons_append, splitPipe, List.append_eq]
      rw [ih, h]
      by_cases hc : c = '|' <;> simp [hc]

theorem splitPipe_joinPipe {l : List Str} (hne : l ≠ [])
    (hfree : ∀ t ∈ l, '|' ∉ t) : splitPipe (joinPipe l) = l := by
  induction l with
  | nil => exact absurd rfl hne
  | cons t ts ih =>
    rcases ts with _ | ⟨u, us⟩
    · simp [joinPipe, splitPipe_no_pipe (hfree t (List.mem_cons_self t _))]
    · have hj : joinPipe (t :: u :: us) = t ++ '|' :: joinPipe (u :: us) := rfl
      rw [hj, splitPipe_append_pipe,
        splitPipe_no_pipe (hfree t (List.mem_cons_self t _)),
        ih (by simp) (fun v hv => hfree v (List.mem_cons_of_mem t hv))]
      rfl

theorem joinPipe_eq_nil_iff (l : List Str) :
    joinPipe l = [] ↔ l = [] ∨ l = [[]] := by
  rcases l with _ | ⟨t, ts⟩
  · simp [joinPipe]
  · rcases ts with _ | ⟨u, us⟩
    · simp [joinPipe]
    · have hj : joinPipe (t :: u :: us) = t ++ '|' :: joinPipe (u :: us) := rfl
      constructor
      · intro h; rw [hj] at h; exact absurd h (by simp)
      · intro h; simp at h

/-! ### Lemmas about first-occurrence deduplication -/

theorem mem_dedupF {α : Type} [DecidableEq α] {l : List α} {x : α} :
    x ∈ dedupF l ↔ x ∈ l := by
  induction l with
  | nil => simp [dedupF]
  | cons y ys ih =>
    simp only [dedupF, List.mem_cons, List.mem_filter, ih, decide_not,
      Bool.not_eq_true', decide_eq_false_iff_not, Decidable.not_not]
    by_cases hxy : x = y <;> simp [hxy]

theorem dedupF_toFinset {α : Type} [DecidableEq α] (l : List α) :
    (dedupF l).toFinset = l.toFinset := by
  ext x
  simp [List.mem_toFinset, mem_dedupF]

theorem dedupF_nodup {α : Type} [DecidableEq α] (l : List α) :
    (dedupF l).Nodup := by
  induction l with
  | nil => simp [dedupF]
  | cons y ys ih =>
    simp only [dedupF]
    refine List.nodup_cons.mpr ⟨?_, List.Nodup.filter _ ih⟩
    intro hy
    have := (List.mem_filter.mp hy).2
    simp at this

theorem dedupF_ne_nil {α : Type} [DecidableEq α] {l : List α} (h : l ≠ []) :
    dedupF l ≠ [] := by
  rcases l with _ | ⟨x, xs⟩
  · exact absurd rfl h
  · simp [dedupF]

theorem keepFirstBy_subset {α β : Type} [DecidableEq β] (key : α → β)
    (l : List α) : ∀ x ∈ keepFirstBy key l, x ∈ l := by
  induction l with
  | nil => simp [keepFirstBy]
  | cons y ys ih =>
    intro x hx
    simp only [keepFirstBy, List.mem_cons] at hx
    rcases hx with rfl | hx
    · exact List.mem_cons_self x _
    · exact List.mem_cons_of_mem y (ih x (List.mem_filter.mp hx).1)

/-! ### Token contents of merged citation values -/

/-- The `|`-separated tokens of a cell (empty for NaN), used to compare the
content of aggregated fields independently of join order. -/
def valTokens : Val → List Str
  | .nan => []
  | v => splitPipe (strOfVal v)

/-- Token content of a cell as a set. -/
def tokenSet (v : Val) : Finset Str := (valTokens v).toFinset

@[simp] theorem isNan_nan : isNan Val.nan = true := rfl

@[simp] theorem isNan_s (w : Str) : isNan (Val.s w) = false := rfl

@[simp] theorem isNan_num (q : Rat) : isNan (Val.num q) = false := rfl

@[simp] theorem valTokens_nan : valTokens Val.nan = [] := rfl

theorem isNan_true {v : Val} (h : isNan v = true) : v = .nan := by
  cases v <;> simp [isNan] at h ⊢

theorem valTokens_eq {v : Val} (h : isNan v = false) :
    valTokens v = splitPipe (strOfVal v) := by
  cases v <;> simp [isNan] at h ⊢ <;> rfl

theorem flatMapSplit_eq (es : List Str) :
    (es.flatMap fun e => if '|' ∈ e then splitPipe e else [e])
      = es.flatMap splitPipe := by
  induction es with
  | nil => rfl
  | cons e es ih =>
    simp only [List.flatMap_cons, ih]
    congr 1
    by_cases hp : '|' ∈ e
    · simp [hp]
    · simp [hp, splitPipe_no_pipe hp]

theorem flatMap_splitPipe_ne_nil {es : List Str} (h : es ≠ []) :
    es.flatMap splitPipe ≠ [] := by
  rcases es with _ | ⟨e, es⟩
  · exact absurd rfl h
  · simp only [List.flatMap_cons]
    intro hcontra
    rcases List.append_eq_nil.mp hcontra with ⟨h1, _⟩
    exact splitPipe_ne_nil e h1

theorem core_tokens (es : List Str) (h : es ≠ []) :
    (splitPipe (joinPipe (dedupF (es.flatMap splitPipe)))).toFinset
      = (es.flatMap splitPipe).toFinset := by
  have hne : dedupF (es.flatMap splitPipe) ≠ [] :=
    dedupF_ne_nil (flatMap_splitPipe_ne_nil h)
  have hfree : ∀ t ∈ dedupF (es.flatMap splitPipe), '|' ∉ t := by
    intro t ht
    rcases List.mem_flatMap.mp (mem_dedupF.mp ht) with ⟨e, _, hte⟩
    exact mem_splitPipe_no_pipe hte
  rw [splitPipe_joinPipe hne hfree, dedupF_toFinset]

theorem merge_tokens_of_es {x y : Val} {es : List Str}
    (hes : dropnaStrs [x, y] = es) (hne : es ≠ []) :
    tokenSet (merge_pubmed_ids x y) = (es.flatMap splitPipe).toFinset := by
  have hemp : es.isEmpty = false := by
    rcases es with _ | _
    · exact absurd rfl hne
    · rfl
  show tokenSet
      (if (dropnaStrs [x, y]).isEmpty then Val.nan
       else Val.s (joinPipe (dedupF ((dropnaStrs [x, y]).flatMap
         (fun e => if '|' ∈ e then splitPipe e else [e]))))) = _
  rw [hes, hemp, flatMapSplit_eq]
  simp only [Bool.false_eq_true, if_false]
  exact core_tokens es hne

/-- Content of the citation column produced by `merge_pubmed_ids`: the merged
cell carries exactly the union of the `|`-tokens of the two input cells; no
token (empty, placeholder or otherwise) is dropped or added. -/
theorem merge_pubmed_ids_tokenSet (x y : Val) :
    tokenSet (merge_pubmed_ids x y) = tokenSet x ∪ tokenSet y := by
  by_cases hx : isNan x = true
  · rw [isNan_true hx]
    by_cases hy : isNan y = true
    · rw [isNan_true hy]; rfl
    · have hyf : isNan y = false := by simpa using hy
      have h1 : dropnaStrs [Val.nan, y] = [strOfVal y] := by
        simp [dropnaStrs, hyf]
      rw [merge_tokens_of_es h1 (by simp)]
      simp [tokenSet, valTokens_eq hyf]
  · have hxf : isNan x = false := by simpa using hx
    by_cases hy : isNan y = true
    · rw [isNan_true hy]
      have h1 : dropnaStrs [x, Val.nan] = [strOfVal x] := by
        simp [dropnaStrs, hxf]
      rw [merge_tokens_of_es h1 (by simp)]
      simp [tokenSet, valTokens_eq hxf]
    · have hyf : isNan y = false := by simpa using hy
      have h1 : dropnaStrs [x, y] = [strOfVal x, strOfVal y] := by
        simp [dropnaStrs, hxf, hyf]
      rw [merge_tokens_of_es h1 (by simp)]
      simp [tokenSet, valTokens_eq hxf, valTokens_eq hyf, List.flatMap_cons]

/-! ### The per-source deduplication stage (`PPI.intact_process`, lines 318-363) -/

/-- A row of the projected and renamed IntAct dataframe, with all five
IntAct edge fields selected (the default configuration).  `id_a`/`id_b` are
the `uniprot_a`/`uniprot_b` columns (`none` models NaN from an unmapped id). -/
structure IRec where
  id_a : Option Str
  id_b : Option Str
  source : Val
  pubmeds : Val
  mi_score : Val
  methods : Val
  interaction_types : Val
deriving DecidableEq, Repr

/-- Sort key of `sort_values(by = mi_score, ascending = False)`: floats
compare numerically, NaN sorts last (`na_position = "last"` default). -/
def scoreKey : Val → Option Rat
  | .num q => some q
  | _ => none

/-- Whether `a` stays before `b` in the descending order (ties keep input
order, NaN last). -/
def descBefore (a b : IRec) : Bool :=
  match scoreKey a.mi_score, scoreKey b.mi_score with
  | _, none => true
  | none, some _ => false
  | some p, some q => q ≤ p

def insertDesc (x : IRec) : List IRec → List IRec
  | [] => [x]
  | y :: ys => if descBefore x y then x :: y :: ys else y :: insertDesc x ys

/-- Model of `sort_values(by = mi_score, ascending = False)` as a stable
insertion sort.  Theorems that depend on relative row order either fix
distinct keys (where every correct descending sort agrees) or concern at
most two rows (where the numpy default sort is also stable). -/
def sortDescScore (rows : List IRec) : List IRec :=
  rows.foldr insertDesc []

/-- Model of `dropna(subset = ["uniprot_a", "uniprot_b"])`. -/
def dropnaPair (rows : List IRec) : List IRec :=
  rows.filter (fun r => r.id_a.isSome && r.id_b.isSome)

/-- The ordered `groupby(["uniprot_a", "uniprot_b"])` key of a row. -/
def okey (r : IRec) : Str × Str := (r.id_a.getD [], r.id_b.getD [])

/-- Model of `aggregate_pubmeds` (`src/bccb/ppi_adapter.py:329`): join the set of
non-NaN values of the citation column of the group with `"|"`; NaN when the
joined string is empty.  The Python set iteration order is fixed here as first
occurrence; all properties proved below are insensitive to that order. -/
def aggregate_pubmeds (vs : List Val) : Val :=
  let j := joinPipe (dedupF (dropnaStrs vs))
  if j = [] then .nan else .s j

/-- The aggregated output row of one ordered-pair group. -/
def aggRow (rows : List IRec) (k : Str × Str) : IRec :=
  let g := rows.filter (fun r => okey r = k)
  { id_a := some k.1
    id_b := some k.2
    source := firstNonNan (g.map (fun r => r.source))
    pubmeds := aggregate_pubmeds (g.map (fun r => r.pubmeds))
    mi_score := firstNonNan (g.map (fun r => r.mi_score))
    methods := firstNonNan (g.map (fun r => r.methods))
    interaction_types := firstNonNan (g.map (fun r => r.interaction_types)) }

/-- Model of the grouped aggregation
`groupby(["uniprot_a", "uniprot_b"], sort = False).aggregate(agg_dict)`:
one output row per ordered pair, in order of first appearance; the citation
column is aggregated by `aggregate_pubmeds`, every other column by `"first"`
(pandas `GroupBy.first`: the first non-NaN entry of that column within the
group, NOT the whole first row). -/
def groupAgg (rows : List IRec) : List IRec :=
  (dedupF (rows.map okey)).map (aggRow rows)

/-- The `frozenset` of the row slice `[uniprot_a, uniprot_b,
interaction_type]` used by the reciprocal-duplicate filter (line 346-357). -/
def rowKeySet (r : IRec) : Finset Val :=
  {Val.s (r.id_a.getD []), Val.s (r.id_b.getD []), r.interaction_types}

/-- The deduplication stage of `PPI.intact_process`
(`src/bccb/ppi_adapter.py:318-363`), all five IntAct fields selected (the
default): sort descending on `mi_score`, drop rows with a missing pair id,
collapse ordered duplicate pairs with `groupby`/`aggregate`, then keep only
the first row for each `frozenset {uniprot_a, uniprot_b, interaction_type}`
(dropping reciprocal duplicates that share an interaction type).
`biogrid_process` (lines 541-578) is the same pipeline without the score
sort, with `experimental_system` in place of `interaction_types`. -/
def intact_dedup (rows : List IRec) : List IRec :=
  keepFirstBy rowKeySet (groupAgg (dropnaPair (sortDescScore rows)))

theorem firstNonNan_single (v : Val) : firstNonNan [v] = v := by
  cases v <;> rfl

theorem descBefore_of_eq {a b : IRec} (h : a.mi_score = b.mi_score) :
    descBefore a b = true := by
  unfold descBefore
  rw [h]
  rcases hk : scoreKey b.mi_score with _ | q
  · rfl
  · simp

theorem mem_groupAgg {rows : List IRec} {r : IRec} (h : r ∈ groupAgg rows) :
    ∃ k, k ∈ rows.map okey ∧ r = aggRow rows k := by
  rcases List.mem_map.mp h with ⟨k, hk, hr⟩
  exact ⟨k, mem_dedupF.mp hk, hr.symm⟩

theorem okey_aggRow (rows : List IRec) (k : Str × Str) :
    okey (aggRow rows k) = k := rfl

theorem firstNonNan_cons_of_false {v : Val} (h : isNan v = false)
    (vs : List Val) : firstNonNan (v :: vs) = v := by
  simp [firstNonNan, h]

/-- Claim C1 (amended): the deduplication stage groups rows by the ORDERED
pair `(id_a, id_b)` and afterwards drops any row whose
`frozenset {id_a, id_b, interaction_type}` already occurred, so a dataset
holding exactly `(a, b, X)` and `(b, a, X)` with one and the same payload `X`
still collapses to exactly one record for the unordered pair `{a, b}`. -/
theorem claim_C1_amended (a b : Str) (src pub sc mth ty : Val) :
    (intact_dedup [⟨some a, some b, src, pub, sc, mth, ty⟩,
        ⟨some b, some a, src, pub, sc, mth, ty⟩]).length = 1
    ∧ ∀ r ∈ intact_dedup [⟨some a, some b, src, pub, sc, mth, ty⟩,
        ⟨some b, some a, src, pub, sc, mth, ty⟩],
      ({r.id_a.getD [], r.id_b.getD []} : Finset Str) = {a, b} := by
  have hsort : sortDescScore [(⟨some a, some b, src, pub, sc, mth, ty⟩ : IRec),
      ⟨some b, some a, src, pub, sc, mth, ty⟩]
      = [⟨some a, some b, src, pub, sc, mth, ty⟩,
        ⟨some b, some a, src, pub, sc, mth, ty⟩] := by
    show insertDesc _ (insertDesc _ []) = _
    simp only [insertDesc]
    have hd : descBefore (⟨some a, some b, src, pub, sc, mth, ty⟩ : IRec)
        ⟨some b, some a, src, pub, sc, mth, ty⟩ = true := descBefore_of_eq rfl
    rw [if_pos hd]
  by_cases hab : a = b
  · subst hab
    have hcomp : intact_dedup [(⟨some a, some a, src, pub, sc, mth, ty⟩ : IRec),
        ⟨some a, some a, src, pub, sc, mth, ty⟩]
        = [aggRow [⟨some a, some a, src, pub, sc, mth, ty⟩,
            ⟨some a, some a, src, pub, sc, mth, ty⟩] (a, a)] := by
      unfold intact_dedup
      rw [hsort]
      simp [dropnaPair, groupAgg, okey, dedupF, keepFirstBy]
    refine ⟨by rw [hcomp]; rfl, ?_⟩
    intro r hr
    rw [hcomp] at hr
    rcases List.mem_singleton.mp hr with rfl
    simp [aggRow]
  · have hba : b ≠ a := fun h => hab h.symm
    have hcomp : intact_dedup [(⟨some a, some b, src, pub, sc, mth, ty⟩ : IRec),
        ⟨some b, some a, src, pub, sc, mth, ty⟩]
        = [aggRow [⟨some a, some b, src, pub, sc, mth, ty⟩,
            ⟨some b, some a, src, pub, sc, mth, ty⟩] (a, b)] := by
      unfold intact_dedup
      rw [hsort]
      have hks : rowKeySet (aggRow [(⟨some a, some b, src, pub, sc, mth, ty⟩ : IRec),
          ⟨some b, some a, src, pub, sc, mth, ty⟩] (b, a))
          = rowKeySet (aggRow [⟨some a, some b, src, pub, sc, mth, ty⟩,
            ⟨some b, some a, src, pub, sc, mth, ty⟩] (a, b)) := by
        simp only [rowKeySet, aggRow, okey]
        simp [hab, hba]
        exact Finset.Insert.comm _ _ _
      simp [dropnaPair, groupAgg, okey, dedupF, keepFirstBy, hab, hba, hks]
    refine ⟨by rw [hcomp]; rfl, ?_⟩
    intro r hr
    rw [hcomp] at hr
    rcases List.mem_singleton.mp hr with rfl
    simp [aggRow]

theorem claim_C1_witness :
    (intact_dedup [⟨some ("P1".data), some ("P2".data), Val.s ("IntAct".data),
        Val.nan, Val.num 1, Val.nan, Val.s ("t".data)⟩,
      ⟨some ("P2".data), some ("P1".data), Val.s ("IntAct".data),
        Val.nan, Val.num 1, Val.nan, Val.s ("t".data)⟩]).length = 1 :=
  (claim_C1_amended ("P1".data) ("P2".data) (Val.s ("IntAct".data)) Val.nan
    (Val.num 1) Val.nan (Val.s ("t".data))).1

/-- Claim C1 counterexample: grouping is NOT by the unordered pair.  Two
reciprocal rows whose interaction types differ survive as two distinct
records for the same unordered pair `{P1, P2}`. -/
theorem claim_C1_counterexample :
    ((intact_dedup [⟨some ("P1".data), some ("P2".data), Val.s ("IntAct".data),
        Val.nan, Val.num 2, Val.nan, Val.s ("t1".data)⟩,
      ⟨some ("P2".data), some ("P1".data), Val.s ("IntAct".data),
        Val.nan, Val.num 1, Val.nan, Val.s ("t2".data)⟩]).countP
      (fun r => decide (({r.id_a.getD [], r.id_b.getD []} : Finset Str)
        = {"P1".data, "P2".data}))) = 2 := by
  decide

/-- Claim C4 (amended): with a priority field present, rows are sorted
descending on it before grouping, but each non-multivalued output field is
filled per column with the FIRST NON-NaN value in the sorted group; when the
highest-priority record of a group has all those fields present (and
priorities are distinct so the sorted order is unambiguous), it supplies all
of them, and the multivalued field aggregates the whole group in descending
priority order. -/
theorem claim_C4_amended (a b : Str) (q1 q2 : Rat)
    (src1 pub1 mth1 ty1 src2 pub2 mth2 ty2 : Val)
    (hq : q2 < q1) (hsrc : isNan src1 = false) (hmth : isNan mth1 = false)
    (hty : isNan ty1 = false) :
    intact_dedup [⟨some a, some b, src2, pub2, .num q2, mth2, ty2⟩,
        ⟨some a, some b, src1, pub1, .num q1, mth1, ty1⟩]
      = [⟨some a, some b, src1, aggregate_pubmeds [pub1, pub2], .num q1,
          mth1, ty1⟩] := by
  have hd : descBefore (⟨some a, some b, src2, pub2, .num q2, mth2, ty2⟩ : IRec)
      ⟨some a, some b, src1, pub1, .num q1, mth1, ty1⟩ = false := by
    simp only [descBefore, scoreKey]
    simpa using not_le.mpr hq
  have hsort : sortDescScore [(⟨some a, some b, src2, pub2, .num q2, mth2, ty2⟩ : IRec),
      ⟨some a, some b, src1, pub1, .num q1, mth1, ty1⟩]
      = [⟨some a, some b, src1, pub1, .num q1, mth1, ty1⟩,
        ⟨some a, some b, src2, pub2, .num q2, mth2, ty2⟩] := by
    show insertDesc _ (insertDesc _ []) = _
    simp only [insertDesc, hd]
    simp
  unfold intact_dedup
  rw [hsort]
  simp [dropnaPair, groupAgg, okey, dedupF, keepFirstBy, aggRow, firstNonNan,
    hsrc, hmth, hty]

theorem claim_C4_witness :
    ((5 : Rat) < 9 ∧ isNan (Val.s ("IntAct".data)) = false
      ∧ isNan (Val.s ("m".data)) = false ∧ isNan (Val.s ("t".data)) = false)
    ∧ intact_dedup [⟨some ("P1".data), some ("P2".data), Val.s ("IntAct".data),
        Val.s ("22".data), Val.num 5, Val.s ("m2".data), Val.s ("t2".data)⟩,
      ⟨some ("P1".data), some ("P2".data), Val.s ("IntAct".data),
        Val.s ("11".data), Val.num 9, Val.s ("m".data), Val.s ("t".data)⟩]
      = [⟨some ("P1".data), some ("P2".data), Val.s ("IntAct".data),
          aggregate_pubmeds [Val.s ("11".data), Val.s ("22".data)], Val.num 9,
          Val.s ("m".data), Val.s ("t".data)⟩] :=
  ⟨⟨by norm_num, rfl, rfl, rfl⟩,
    claim_C4_amended ("P1".data) ("P2".data) 9 5 (Val.s ("IntAct".data))
      (Val.s ("11".data)) (Val.s ("m".data)) (Val.s ("t".data))
      (Val.s ("IntAct".data)) (Val.s ("22".data)) (Val.s ("m2".data))
      (Val.s ("t2".data)) (by norm_num) rfl rfl rfl⟩

/-- Claim C4 counterexample: the collapsed record does NOT take all its
non-multivalued fields from the highest-priority row.  Here the score-9 row
has a NaN `method`, and the `method` of the output record comes from the score-5
row instead (pandas `groupby` `"first"` takes the first non-NaN entry per
column, not the first row). -/
theorem claim_C4_counterexample :
    (intact_dedup [⟨some ("P1".data), some ("P2".data), Val.s ("IntAct".data),
        Val.nan, Val.num 5, Val.s ("m1".data), Val.s ("t".data)⟩,
      ⟨some ("P1".data), some ("P2".data), Val.s ("IntAct".data),
        Val.nan, Val.num 9, Val.nan, Val.s ("t".data)⟩]).map
      (fun r => r.methods) = [Val.s ("m1".data)]
    ∧ Val.s ("m1".data) ≠ Val.nan := by
  decide

theorem aggregate_pubmeds_spec (vs : List Val) :
    aggregate_pubmeds vs ≠ Val.s []
    ∧ (∀ j, aggregate_pubmeds vs = Val.s j →
        ∃ l, j = joinPipe l ∧ l.Nodup ∧ l ≠ [] ∧
          l.toFinset = (dropnaStrs vs).toFinset)
    ∧ (aggregate_pubmeds vs = Val.nan →
        (dropnaStrs vs).toFinset ⊆ {([] : Str)}) := by
  simp only [aggregate_pubmeds]
  by_cases hj : joinPipe (dedupF (dropnaStrs vs)) = []
  · rw [if_pos hj]
    refine ⟨by simp, ?_, ?_⟩
    · intro j h
      exact absurd h (by simp)
    · intro _
      rcases (joinPipe_eq_nil_iff _).mp hj with hd | hd
      · rw [← dedupF_toFinset, hd]; simp
      · rw [← dedupF_toFinset, hd]; simp
  · rw [if_neg hj]
    refine ⟨?_, ?_, ?_⟩
    · intro h
      exact hj (Val.s.inj h)
    · intro j h
      refine ⟨dedupF (dropnaStrs vs), (Val.s.inj h).symm, dedupF_nodup _, ?_,
        dedupF_toFinset _⟩
      intro hd
      exact hj (by rw [hd]; rfl)
    · intro h
      exact absurd h (by simp)

/-- Claim C5 (amended): for every record produced by the deduplication stage,
the citation field is never the empty string; when it is a string it is the
`"|"`-join of a duplicate-free non-empty list whose underlying set is exactly
the set of non-NaN citation values of the ordered group of the record; and it is
absent (NaN) exactly when that joined string would be empty, i.e. when the
non-NaN citation values of the group are at most the empty string. -/
theorem claim_C5_amended (rows : List IRec) (r : IRec)
    (hr : r ∈ intact_dedup rows) :
    r.pubmeds ≠ Val.s []
    ∧ (∀ j, r.pubmeds = Val.s j → ∃ l, j = joinPipe l ∧ l.Nodup ∧ l ≠ [] ∧
        l.toFinset = (dropnaStrs (((dropnaPair (sortDescScore rows)).filter
          (fun x => okey x = okey r)).map (fun x => x.pubmeds))).toFinset)
    ∧ (r.pubmeds = Val.nan →
        (dropnaStrs (((dropnaPair (sortDescScore rows)).filter
          (fun x => okey x = okey r)).map (fun x => x.pubmeds))).toFinset
          ⊆ {([] : Str)}) := by
  have hr2 := keepFirstBy_subset rowKeySet _ r hr
  rcases mem_groupAgg hr2 with ⟨k, _, rfl⟩
  simp only [okey_aggRow]
  exact aggregate_pubmeds_spec _

theorem claim_C5_witness :
    ((⟨some ("P1".data), some ("P2".data), Val.s ("IntAct".data),
        Val.s ("123".data), Val.num 1, Val.nan, Val.s ("t".data)⟩ : IRec)
      ∈ intact_dedup [⟨some ("P1".data), some ("P2".data),
        Val.s ("IntAct".data), Val.s ("123".data), Val.num 1, Val.nan,
        Val.s ("t".data)⟩])
    ∧ (⟨some ("P1".data), some ("P2".data), Val.s ("IntAct".data),
        Val.s ("123".data), Val.num 1, Val.nan,
        Val.s ("t".data)⟩ : IRec).pubmeds ≠ Val.s [] :=
  ⟨by decide,
    (claim_C5_amended [⟨some ("P1".data), some ("P2".data),
      Val.s ("IntAct".data), Val.s ("123".data), Val.num 1, Val.nan,
      Val.s ("t".data)⟩] _ (by decide)).1⟩

/-- Claim C5 counterexample: a group whose only citation value is the
non-absent empty string has a NON-empty set of non-absent values, yet the
output field is NaN (the code tests the joined string, not the set). -/
theorem claim_C5_counterexample :
    (intact_dedup [⟨some ("P1".data), some ("P2".data), Val.s ("IntAct".data),
        Val.s [], Val.num 1, Val.nan, Val.s ("t".data)⟩]).map
      (fun r => r.pubmeds) = [Val.nan]
    ∧ isNan (Val.s []) = false := by
  decide

/-! ### The outer join of `merge_all` -/

/-- Skeleton of `pd.merge(left, right, on = ["uniprot_a", "uniprot_b"],
how = "outer")` followed by the row-wise reconciliation lambdas: every left
row is combined with each right row carrying the same ordered pair (with an
absent right side when there is none), and right rows whose pair never
occurs on the left are appended with an absent left side. -/
def outerJoinBy {α β γ : Type} (ka : α → Str × Str) (kb : β → Str × Str)
    (cmb : Option α → Option β → γ) (L : List α) (R : List β) : List γ :=
  (L.flatMap fun l =>
    if (R.filter (fun r => kb r = ka l)).isEmpty then [cmb (some l) none]
    else (R.filter (fun r => kb r = ka l)).map (fun r => cmb (some l) (some r)))
  ++ ((R.filter (fun r => L.all (fun l => ka l ≠ kb r))).map
      (fun r => cmb none (some r)))

theorem filter_key_toList {β κ : Type} [DecidableEq κ] (kb : β → κ)
    {R : List β} (hR : (R.map kb).Nodup) (p : κ) :
    R.filter (fun r => kb r = p) = (R.find? (fun r => kb r = p)).toList := by
  induction R with
  | nil => rfl
  | cons r rs ih =>
    obtain ⟨hnotin, hrs⟩ : (∀ x ∈ rs, ¬kb x = kb r) ∧ (rs.map kb).Nodup := by
      simpa using hR
    by_cases h : kb r = p
    · rw [List.filter_cons_of_pos (by simpa using h),
        List.find?_cons_of_pos _ (by simpa using h)]
      have hnil : rs.filter (fun x => kb x = p) = [] := by
        refine List.filter_eq_nil_iff.mpr ?_
        intro x hx hk
        exact hnotin x hx (by rw [(by simpa using hk : kb x = p), h])
      simp [hnil, Option.toList]
    · rw [List.filter_cons_of_neg (by simpa using h),
        List.find?_cons_of_neg _ (by simpa using h)]
      exact ih hrs

theorem filter_flatMap_my {α γ : Type} (L : List α) (f : α → List γ)
    (p : γ → Bool) :
    (L.flatMap f).filter p = L.flatMap (fun a => (f a).filter p) := by
  induction L with
  | nil => rfl
  | cons a as ih => simp [List.flatMap_cons, List.filter_append, ih]

theorem filter_const_key {γ κ : Type} [DecidableEq κ] (kc : γ → κ)
    {xs : List γ} {q : κ} (hall : ∀ x ∈ xs, kc x = q) (p : κ) :
    xs.filter (fun g => kc g = p) = if q = p then xs else [] := by
  induction xs with
  | nil => simp
  | cons x xs ih =>
    have hx : kc x = q := hall x (List.mem_cons_self x xs)
    have hrest := ih (fun y hy => hall y (List.mem_cons_of_mem x hy))
    by_cases hqp : q = p
    · subst hqp
      rw [List.filter_cons_of_pos (by simp [hx]), hrest]
      simp
    · rw [List.filter_cons_of_neg (by simp [hx, hqp]), hrest, if_neg hqp,
        if_neg hqp]

theorem flatMap_guard_toList {α γ κ : Type} [DecidableEq κ] (ka : α → κ)
    (f : α → List γ) {L : List α} (hL : (L.map ka).Nodup) (p : κ) :
    (L.flatMap fun l => if ka l = p then f l else [])
      = ((L.find? (fun l => ka l = p)).map f).getD [] := by
  induction L with
  | nil => rfl
  | cons l ls ih =>
    obtain ⟨hnotin, hls⟩ : (∀ x ∈ ls, ¬ka x = ka l) ∧ (ls.map ka).Nodup := by
      simpa using hL
    by_cases h : ka l = p
    · rw [List.flatMap_cons, if_pos h, List.find?_cons_of_pos _ (by simpa using h)]
      have hnil : (ls.flatMap fun x => if ka x = p then f x else []) = [] := by
        refine List.flatMap_eq_nil_iff.mpr ?_
        intro x hx
        rw [if_neg (fun hk => hnotin x hx (hk.trans h.symm))]
      simp [hnil]
    · rw [List.flatMap_cons, if_neg h, List.find?_cons_of_neg _ (by simpa using h)]
      simpa using ih hls


theorem filter_map_my {α γ : Type} (f : α → γ) (p : γ → Bool) (l : List α) :
    (l.map f).filter p = (l.filter (fun a => p (f a))).map f := by
  induction l with
  | nil => rfl
  | cons a as ih => by_cases h : p (f a) <;> simp [h, ih]

/-- The rows of the outer join carrying a given ordered pair `p`: when each
input is deduplicated on its pair (one row per ordered pair), the join has
exactly the expected single combined row for `p`, with an absent side where
`p` is missing from that operand. -/
theorem outerJoinBy_filter {α β γ : Type} (ka : α → Str × Str)
    (kb : β → Str × Str) (cmb : Option α → Option β → γ) (kc : γ → Str × Str)
    (hcl : ∀ l mr, kc (cmb (some l) mr) = ka l)
    (hcr : ∀ r, kc (cmb none (some r)) = kb r)
    {L : List α} {R : List β}
    (hL : (L.map ka).Nodup) (hR : (R.map kb).Nodup) (p : Str × Str) :
    (outerJoinBy ka kb cmb L R).filter (fun g => kc g = p)
      = match L.find? (fun l => ka l = p), R.find? (fun r => kb r = p) with
        | some l, some r => [cmb (some l) (some r)]
        | some l, none => [cmb (some l) none]
        | none, some r => [cmb none (some r)]
        | none, none => [] := by
  have hallF : ∀ l : α, ∀ x ∈ (if (R.filter (fun r => kb r = ka l)).isEmpty
      then [cmb (some l) none]
      else (R.filter (fun r => kb r = ka l)).map
        (fun r => cmb (some l) (some r))), kc x = ka l := by
    intro l x hx
    by_cases hms : (R.filter (fun r => kb r = ka l)).isEmpty
    · rw [if_pos hms] at hx
      rcases List.mem_singleton.mp hx with rfl
      exact hcl l none
    · rw [if_neg hms] at hx
      rcases List.mem_map.mp hx with ⟨r, _, rfl⟩
      exact hcl l (some r)
  unfold outerJoinBy
  rw [List.filter_append]
  have hpart1 : (L.flatMap fun l =>
      if (R.filter (fun r => kb r = ka l)).isEmpty then [cmb (some l) none]
      else (R.filter (fun r => kb r = ka l)).map
        (fun r => cmb (some l) (some r))).filter (fun g => kc g = p)
      = ((L.find? (fun l => ka l = p)).map (fun l =>
          if (R.filter (fun r => kb r = ka l)).isEmpty then [cmb (some l) none]
          else (R.filter (fun r => kb r = ka l)).map
            (fun r => cmb (some l) (some r)))).getD [] := by
    rw [filter_flatMap_my]
    rw [show (fun l => ((if (R.filter (fun r => kb r = ka l)).isEmpty
        then [cmb (some l) none]
        else (R.filter (fun r => kb r = ka l)).map
          (fun r => cmb (some l) (some r))).filter (fun g => kc g = p)))
        = (fun l => if ka l = p then
            (if (R.filter (fun r => kb r = ka l)).isEmpty
             then [cmb (some l) none]
             else (R.filter (fun r => kb r = ka l)).map
               (fun r => cmb (some l) (some r))) else []) from
        funext (fun l => filter_const_key kc (hallF l) p)]
    exact flatMap_guard_toList ka _ hL p
  rw [hpart1]
  rcases hfL : L.find? (fun l => ka l = p) with _ | l0
  · have hnoL : ∀ l ∈ L, ¬ka l = p := by
      intro l hl
      have := List.find?_eq_none.mp hfL l hl
      simpa using this
    have hpart2 : ((R.filter (fun r => L.all (fun l => ka l ≠ kb r))).map
        (fun r => cmb none (some r))).filter (fun g => kc g = p)
        = ((R.find? (fun r => kb r = p)).toList).map
            (fun r => cmb none (some r)) := by
      rw [filter_map_my, List.filter_filter]
      have hcong : ∀ r ∈ R,
          (decide (kc (cmb none (some r)) = p)
            && L.all (fun l => ka l ≠ kb r))
          = decide (kb r = p) := by
        intro r _
        rw [hcr r]
        by_cases hkb : kb r = p
        · simp [hkb]
          exact hnoL
        · simp [hkb]
      rw [List.filter_congr hcong, filter_key_toList kb hR p]
    rw [hpart2]
    rcases hfR : R.find? (fun r => kb r = p) with _ | r0 <;> simp
  · have hl0 : ka l0 = p := by
      have := List.find?_some hfL
      simpa using this
    have hl0mem : l0 ∈ L := List.mem_of_find?_eq_some hfL
    have hfe : (fun r => decide (kb r = ka l0))
        = (fun r => decide (kb r = p)) := by
      funext r
      rw [hl0]
    have hms : R.filter (fun r => kb r = ka l0)
        = (R.find? (fun r => kb r = p)).toList := by
      rw [hfe]
      exact filter_key_toList kb hR p
    have hpart2 : ((R.filter (fun r => L.all (fun l => ka l ≠ kb r))).map
        (fun r => cmb none (some r))).filter (fun g => kc g = p) = [] := by
      refine List.filter_eq_nil_iff.mpr ?_
      intro x hx hkc
      rcases List.mem_map.mp hx with ⟨r, hr, rfl⟩
      have hunm := (List.mem_filter.mp hr).2
      have hkb : kb r = p := by
        have h2 := hcr r
        rw [h2] at hkc
        simpa using hkc
      have h3 := List.all_eq_true.mp hunm l0 hl0mem
      have h4 : ka l0 ≠ kb r := by simpa using h3
      exact h4 (hl0.trans hkb.symm)
    rw [hpart2]
    rcases hfR : R.find? (fun r => kb r = p) with _ | r0
    · have hemp : (R.filter (fun r => kb r = ka l0)).isEmpty = true := by
        rw [hms, hfR]
        rfl
      simp only [Option.map_some', Option.getD_some, List.append_nil]
      rw [if_pos hemp]
    · have hms1 : R.filter (fun r => kb r = ka l0) = [r0] := by
        rw [hms, hfR]
        rfl
      have hemp : ¬(R.filter (fun r => kb r = ka l0)).isEmpty = true := by
        rw [hms1]
        simp
      simp only [Option.map_some', Option.getD_some, List.append_nil]
      rw [if_neg hemp, hms1]
      rfl

/-- The ordered-pair key set of the outer join is the union of the two
key sets of the two operands (outer-join completeness at the level of key sets,
without any deduplication assumption). -/
theorem outerJoinBy_keys_toFinset {α β γ : Type} (ka : α → Str × Str)
    (kb : β → Str × Str) (cmb : Option α → Option β → γ) (kc : γ → Str × Str)
    (hcl : ∀ l mr, kc (cmb (some l) mr) = ka l)
    (hcr : ∀ r, kc (cmb none (some r)) = kb r)
    (L : List α) (R : List β) :
    ((outerJoinBy ka kb cmb L R).map kc).toFinset
      = (L.map ka).toFinset ∪ (R.map kb).toFinset := by
  ext q
  simp only [List.mem_toFinset, Finset.mem_union, List.mem_map]
  constructor
  · rintro ⟨g, hg, rfl⟩
    rcases List.mem_append.mp hg with hg1 | hg2
    · rcases List.mem_flatMap.mp hg1 with ⟨l, hl, hgl⟩
      left
      refine ⟨l, hl, ?_⟩
      by_cases hms : (R.filter (fun r => kb r = ka l)).isEmpty
      · rw [if_pos hms] at hgl
        rcases List.mem_singleton.mp hgl with rfl
        exact (hcl l none).symm
      · rw [if_neg hms] at hgl
        rcases List.mem_map.mp hgl with ⟨r, _, rfl⟩
        exact (hcl l (some r)).symm
    · rcases List.mem_map.mp hg2 with ⟨r, hr, rfl⟩
      right
      exact ⟨r, (List.mem_filter.mp hr).1, (hcr r).symm⟩
  · intro hq
    have hfromL : ∀ l, l ∈ L → ka l = q →
        ∃ g, g ∈ outerJoinBy ka kb cmb L R ∧ kc g = q := by
      intro l hl hkq
      by_cases hms : (R.filter (fun r => kb r = ka l)).isEmpty
      · refine ⟨cmb (some l) none, ?_, by rw [hcl]; exact hkq⟩
        refine List.mem_append_left _ (List.mem_flatMap.mpr ⟨l, hl, ?_⟩)
        rw [if_pos hms]
        simp
      · rcases hne : R.filter (fun r => kb r = ka l) with _ | ⟨r, rs⟩
        · rw [hne] at hms
          simp at hms
        · refine ⟨cmb (some l) (some r), ?_, by rw [hcl]; exact hkq⟩
          refine List.mem_append_left _ (List.mem_flatMap.mpr ⟨l, hl, ?_⟩)
          rw [if_neg hms, hne]
          simp
    rcases hq with ⟨l, hl, hkq⟩ | ⟨r, hr, hkq⟩
    · exact hfromL l hl hkq
    · by_cases hm : L.all (fun l => ka l ≠ kb r) = true
      · refine ⟨cmb none (some r), ?_, by rw [hcr]; exact hkq⟩
        exact List.mem_append_right _
          (List.mem_map_of_mem _ (List.mem_filter.mpr ⟨hr, hm⟩))
      · obtain ⟨l, hl, hkl⟩ : ∃ l ∈ L, ka l = kb r := by
          by_contra hcon
          push_neg at hcon
          refine hm (List.all_eq_true.mpr ?_)
          intro l hl
          simpa using hcon l hl
        exact hfromL l hl (hkl.trans hkq)

/-! ### The reconciling merges of `merge_all` -/

/-- Extract a column from an optional (possibly absent) side of a joined
row; an absent side contributes NaN for every column. -/
def optV {α : Type} (o : Option α) (f : α → Val) : Val :=
  (o.map f).getD .nan

@[simp] theorem optV_none {α : Type} (f : α → Val) : optV none f = Val.nan := rfl

@[simp] theorem optV_some {α : Type} (x : α) (f : α → Val) :
    optV (some x) f = f x := rfl

@[simp] theorem valTokens_s (w : Str) : valTokens (Val.s w) = splitPipe w := rfl

/-- A deduplicated per-source record carrying the three shared-concept
columns that `merge_all` reconciles across sources (provenance source,
citation list, method / experimental system). -/
structure SRec where
  a : Str
  b : Str
  source : Val
  pubmed : Val
  method : Val
deriving DecidableEq, Repr

def okeyS (r : SRec) : Str × Str := (r.a, r.b)

/-- Row-wise reconciliation of the first (intact-biogrid) branch of
`merge_all` (`src/bccb/ppi_adapter.py:866-1026`) on one joined row: the two
source columns are joined with `"|"` over the non-NaN sides
(lines 879-913), the two citation columns are merged by `merge_pubmed_ids`
(lines 916-956), and the method column takes the first non-NaN side
(lines 959-1026). -/
def combineS (ml mr : Option SRec) : SRec :=
  { a := match ml, mr with
      | some l, _ => l.a
      | none, some r => r.a
      | none, none => []
    b := match ml, mr with
      | some l, _ => l.b
      | none, some r => r.b
      | none, none => []
    source := .s (dropnaJoin [optV ml (fun x => x.source),
      optV mr (fun x => x.source)])
    pubmed := merge_pubmed_ids (optV ml (fun x => x.pubmed))
      (optV mr (fun x => x.pubmed))
    method := firstNonNan [optV ml (fun x => x.method),
      optV mr (fun x => x.method)] }

/-- One fold step of `merge_all` on two datasets sharing the reconciled
columns, used to compare the two fold orders. -/
def genMerge (L R : List SRec) : List SRec :=
  outerJoinBy okeyS okeyS combineS L R

/-- The token content of one reconciled column over the rows of a dataset
carrying a given ordered pair. -/
def keyTokens (f : SRec → Val) (p : Str × Str) (ds : List SRec) : Finset Str :=
  ((ds.filter (fun g => okeyS g = p)).flatMap (fun g => valTokens (f g))).toFinset

theorem dropnaJoin_swap_tokens (x y : Val) :
    (splitPipe (dropnaJoin [x, y])).toFinset
      = (splitPipe (dropnaJoin [y, x])).toFinset := by
  by_cases hx : isNan x = true <;> by_cases hy : isNan y = true
  · rw [isNan_true hx, isNan_true hy]
  · rw [isNan_true hx]
    have hyf : isNan y = false := by simpa using hy
    simp [dropnaJoin, dropnaStrs, hyf]
  · rw [isNan_true hy]
    have hxf : isNan x = false := by simpa using hx
    simp [dropnaJoin, dropnaStrs, hxf]
  · have hxf : isNan x = false := by simpa using hx
    have hyf : isNan y = false := by simpa using hy
    have h1 : dropnaJoin [x, y] = strOfVal x ++ '|' :: strOfVal y := by
      simp [dropnaJoin, dropnaStrs, hxf, hyf, joinPipe]
    have h2 : dropnaJoin [y, x] = strOfVal y ++ '|' :: strOfVal x := by
      simp [dropnaJoin, dropnaStrs, hxf, hyf, joinPipe]
    rw [h1, h2, splitPipe_append_pipe, splitPipe_append_pipe]
    simp [List.toFinset_append, Finset.union_comm]

/-- Claim C6 (amended): for two deduplicated datasets, the two fold orders
agree on the final ordered-pair set and on the per-pair token content of the
set-aggregated fields (provenance source and citations); the method field is
NOT order-insensitive, because the code reconciles it by taking the first
non-absent side in fold order. -/
theorem claim_C6_amended (L R : List SRec)
    (hL : (L.map okeyS).Nodup) (hR : (R.map okeyS).Nodup) :
    ((genMerge L R).map okeyS).toFinset = ((genMerge R L).map okeyS).toFinset
    ∧ (∀ p, keyTokens (fun g => g.source) p (genMerge L R)
        = keyTokens (fun g => g.source) p (genMerge R L))
    ∧ (∀ p, keyTokens (fun g => g.pubmed) p (genMerge L R)
        = keyTokens (fun g => g.pubmed) p (genMerge R L)) := by
  have hcl : ∀ l mr, okeyS (combineS (some l) mr) = okeyS l := fun l mr => rfl
  have hcr : ∀ r, okeyS (combineS none (some r)) = okeyS r := fun r => rfl
  refine ⟨?_, ?_, ?_⟩
  · unfold genMerge
    rw [outerJoinBy_keys_toFinset _ _ _ _ hcl hcr,
      outerJoinBy_keys_toFinset _ _ _ _ hcl hcr, Finset.union_comm]
  · intro p
    unfold keyTokens genMerge
    rw [outerJoinBy_filter _ _ _ okeyS hcl hcr hL hR p,
      outerJoinBy_filter _ _ _ okeyS hcl hcr hR hL p]
    rcases L.find? (fun l => okeyS l = p) with _ | l0 <;>
      rcases R.find? (fun r => okeyS r = p) with _ | r0 <;>
      simp [combineS]
    · exact dropnaJoin_swap_tokens Val.nan r0.source
    · exact dropnaJoin_swap_tokens l0.source Val.nan
    · exact dropnaJoin_swap_tokens l0.source r0.source
  · intro p
    unfold keyTokens genMerge
    rw [outerJoinBy_filter _ _ _ okeyS hcl hcr hL hR p,
      outerJoinBy_filter _ _ _ okeyS hcl hcr hR hL p]
    rcases L.find? (fun l => okeyS l = p) with _ | l0 <;>
      rcases R.find? (fun r => okeyS r = p) with _ | r0 <;>
      simp [combineS]
    · show tokenSet (merge_pubmed_ids Val.nan r0.pubmed)
        = tokenSet (merge_pubmed_ids r0.pubmed Val.nan)
      rw [merge_pubmed_ids_tokenSet, merge_pubmed_ids_tokenSet,
        Finset.union_comm]
    · show tokenSet (merge_pubmed_ids l0.pubmed Val.nan)
        = tokenSet (merge_pubmed_ids Val.nan l0.pubmed)
      rw [merge_pubmed_ids_tokenSet, merge_pubmed_ids_tokenSet,
        Finset.union_comm]
    · show tokenSet (merge_pubmed_ids l0.pubmed r0.pubmed)
        = tokenSet (merge_pubmed_ids r0.pubmed l0.pubmed)
      rw [merge_pubmed_ids_tokenSet, merge_pubmed_ids_tokenSet,
        Finset.union_comm]

theorem claim_C6_witness :
    ((genMerge [⟨"P1".data, "P2".data, Val.s ("A".data), Val.s ("1".data),
        Val.nan⟩]
      [⟨"P3".data, "P4".data, Val.s ("B".data), Val.s ("2".data),
        Val.nan⟩]).map okeyS).toFinset
    = ((genMerge [⟨"P3".data, "P4".data, Val.s ("B".data), Val.s ("2".data),
        Val.nan⟩]
      [⟨"P1".data, "P2".data, Val.s ("A".data), Val.s ("1".data),
        Val.nan⟩]).map okeyS).toFinset :=
  (claim_C6_amended _ _ (by decide) (by decide)).1

/-- Claim C6 counterexample: the reconciled method field depends on the fold
order.  Merging a dataset with method `m1` into one with method `m2` for the
same pair keeps `m1` in one order and `m2` in the other, so the content sets
of the merged method field differ. -/
theorem claim_C6_counterexample :
    (genMerge
        [⟨"P1".data, "P2".data, Val.s ("A".data), Val.nan, Val.s ("m1".data)⟩]
        [⟨"P1".data, "P2".data, Val.s ("B".data), Val.nan,
          Val.s ("m2".data)⟩]).map (fun g => g.method) = [Val.s ("m1".data)]
    ∧ (genMerge
        [⟨"P1".data, "P2".data, Val.s ("B".data), Val.nan, Val.s ("m2".data)⟩]
        [⟨"P1".data, "P2".data, Val.s ("A".data), Val.nan,
          Val.s ("m1".data)⟩]).map (fun g => g.method) = [Val.s ("m2".data)]
    ∧ Val.s ("m1".data) ≠ Val.s ("m2".data) := by
  decide

/-- A record of the merged intact-biogrid frame (the accumulated left
operand of the generic fold step of `merge_all`): reconciled source,
citation and method columns plus the IntAct-exclusive score and interaction
type. -/
structure MRec where
  a : Str
  b : Str
  source : Val
  pubmed : Val
  method : Val
  score : Val
  itype : Val
deriving DecidableEq, Repr

/-- A deduplicated STRING record: provenance source plus the two score
columns (the fields exclusive to the right side of the generic fold). -/
structure TRec where
  a : Str
  b : Str
  source : Val
  combined : Val
  physical : Val
deriving DecidableEq, Repr

/-- A row of the final merged frame. -/
structure FRec where
  a : Str
  b : Str
  source : Val
  pubmed : Val
  method : Val
  score : Val
  itype : Val
  combined : Val
  physical : Val
deriving DecidableEq, Repr

def okeyM (r : MRec) : Str × Str := (r.a, r.b)

def okeyT (r : TRec) : Str × Str := (r.a, r.b)

def okeyF (r : FRec) : Str × Str := (r.a, r.b)

/-- Row-wise content of the generic fold branch of `merge_all`
(`src/bccb/ppi_adapter.py:1158-1234`): outer join on the ordered pair, the
two source columns joined with `"|"` over the non-NaN sides, every other
left column passed through (NaN when the pair is absent on the left), and
the two STRING score columns stringified then truncated at the decimal
point (`astype(str)` followed by `float_to_int`; the NaN score of a pair
absent from STRING thereby becomes the literal string `nan`). -/
def combineF (ml : Option MRec) (mr : Option TRec) : FRec :=
  { a := match ml, mr with
      | some l, _ => l.a
      | none, some r => r.a
      | none, none => []
    b := match ml, mr with
      | some l, _ => l.b
      | none, some r => r.b
      | none, none => []
    source := .s (dropnaJoin [optV ml (fun x => x.source),
      optV mr (fun x => x.source)])
    pubmed := optV ml (fun x => x.pubmed)
    method := optV ml (fun x => x.method)
    score := optV ml (fun x => x.score)
    itype := optV ml (fun x => x.itype)
    combined := float_to_int (astypeStr (optV mr (fun x => x.combined)))
    physical := float_to_int (astypeStr (optV mr (fun x => x.physical))) }

/-- The generic fold step of `merge_all`: the accumulated merged frame
outer-joined with the STRING frame. -/
def mergeMS (L : List MRec) (R : List TRec) : List FRec :=
  outerJoinBy okeyM okeyT combineF L R

/-- Claim C3 (amended): the outer join is keyed on the ORDERED pair.  For
deduplicated operands it produces exactly one merged record for every
ordered pair in the union of the two ordered-pair sets; a pair occurring
only on the left has its right-exclusive score columns equal to the literal
string `nan` (the stringify-then-truncate coercion of the absent value, not
a true missing value); a pair occurring only on the right has every
left-exclusive column absent (NaN). -/
theorem claim_C3_amended (L : List MRec) (R : List TRec)
    (hL : (L.map okeyM).Nodup) (hR : (R.map okeyT).Nodup) :
    (∀ p : Str × Str, p ∈ L.map okeyM ∨ p ∈ R.map okeyT →
       ((mergeMS L R).filter (fun g => okeyF g = p)).length = 1)
    ∧ (∀ p ∈ L.map okeyM, p ∉ R.map okeyT →
        ∀ g ∈ (mergeMS L R).filter (fun g => okeyF g = p),
          g.combined = Val.s ("nan".data) ∧ g.physical = Val.s ("nan".data))
    ∧ (∀ p ∈ R.map okeyT, p ∉ L.map okeyM →
        ∀ g ∈ (mergeMS L R).filter (fun g => okeyF g = p),
          g.pubmed = Val.nan ∧ g.method = Val.nan ∧ g.score = Val.nan
            ∧ g.itype = Val.nan) := by
  have hcl : ∀ l mr, okeyF (combineF (some l) mr) = okeyM l := fun l mr => rfl
  have hcr : ∀ r, okeyF (combineF none (some r)) = okeyT r := fun r => rfl
  refine ⟨?_, ?_, ?_⟩
  · intro p hp
    unfold mergeMS
    rw [outerJoinBy_filter _ _ _ okeyF hcl hcr hL hR p]
    rcases hfL : L.find? (fun l => okeyM l = p) with _ | l0 <;>
      rcases hfR : R.find? (fun r => okeyT r = p) with _ | r0
    · exfalso
      rcases hp with hp | hp
      · rcases List.mem_map.mp hp with ⟨l, hl, hlp⟩
        have h2 := List.find?_eq_none.mp hfL l hl
        have h3 : ¬okeyM l = p := by simpa using h2
        exact h3 hlp
      · rcases List.mem_map.mp hp with ⟨r, hr, hrp⟩
        have h2 := List.find?_eq_none.mp hfR r hr
        have h3 : ¬okeyT r = p := by simpa using h2
        exact h3 hrp
    · rfl
    · rfl
    · rfl
  · intro p hpL hpR g hg
    unfold mergeMS at hg
    rw [outerJoinBy_filter _ _ _ okeyF hcl hcr hL hR p] at hg
    have hfR : R.find? (fun r => okeyT r = p) = none := by
      refine List.find?_eq_none.mpr ?_
      intro r hr
      simp only [decide_eq_true_eq]
      intro hrp
      exact hpR (hrp ▸ List.mem_map_of_mem okeyT hr)
    rcases List.mem_map.mp hpL with ⟨l, hl, hlp⟩
    rcases hfL : L.find? (fun l => okeyM l = p) with _ | l0
    · exfalso
      have h2 := List.find?_eq_none.mp hfL l hl
      have h3 : ¬okeyM l = p := by simpa using h2
      exact h3 hlp
    · rw [hfL, hfR] at hg
      rcases List.mem_singleton.mp hg with rfl
      exact ⟨rfl, rfl⟩
  · intro p hpR hpL g hg
    unfold mergeMS at hg
    rw [outerJoinBy_filter _ _ _ okeyF hcl hcr hL hR p] at hg
    have hfL : L.find? (fun l => okeyM l = p) = none := by
      refine List.find?_eq_none.mpr ?_
      intro l hl
      simp only [decide_eq_true_eq]
      intro hlp
      exact hpL (hlp ▸ List.mem_map_of_mem okeyM hl)
    rcases List.mem_map.mp hpR with ⟨r, hr, hrp⟩
    rcases hfR : R.find? (fun r => okeyT r = p) with _ | r0
    · exfalso
      have h2 := List.find?_eq_none.mp hfR r hr
      have h3 : ¬okeyT r = p := by simpa using h2
      exact h3 hrp
    · rw [hfL, hfR] at hg
      rcases List.mem_singleton.mp hg with rfl
      exact ⟨rfl, rfl, rfl, rfl⟩

theorem claim_C3_witness :
    ((mergeMS [⟨"P1".data, "P2".data, Val.s ("IntAct".data), Val.nan, Val.nan,
        Val.nan, Val.nan⟩]
      [⟨"P3".data, "P4".data, Val.s ("STRING".data), Val.num 980,
        Val.nan⟩]).filter
      (fun g => okeyF g = ("P1".data, "P2".data))).length = 1 :=
  (claim_C3_amended _ _ (by decide) (by decide)).1 ("P1".data, "P2".data)
    (Or.inl (by decide))

/-- Claim C3 counterexample: the join does NOT treat `{a, b}` and `{b, a}`
as the same pair.  A left record `(P1, P2)` and a right record `(P2, P1)`
produce TWO merged records for the unordered pair `{P1, P2}`. -/
theorem claim_C3_counterexample :
    ((mergeMS [⟨"P1".data, "P2".data, Val.s ("IntAct".data), Val.nan, Val.nan,
        Val.nan, Val.nan⟩]
      [⟨"P2".data, "P1".data, Val.s ("STRING".data), Val.num 980,
        Val.nan⟩]).filter
      (fun g => decide (({g.a, g.b} : Finset Str)
        = {"P1".data, "P2".data}))).length = 2 := by
  decide

/-! ### Control flow of `merge_all` over available sources (C2) -/

inductive MergeErr where
  | idxErr
  | nameErr
deriving DecidableEq, Repr

/-- The sources whose status dictionary shows them downloaded and processed,
in the fixed dictionary order intact, biogrid, string
(`src/bccb/ppi_adapter.py:842-848`). -/
def availableDbs (intactOK biogridOK stringOK : Bool) : List Str :=
  (if intactOK then ["intact".data] else [])
    ++ (if biogridOK then ["biogrid".data] else [])
    ++ (if stringOK then ["string".data] else [])

/-- One iteration of the `for db in dbs_will_be_merged` loop of `merge_all`
(lines 850-1234), at the granularity of which dataframes are folded into
`merged_df`.  The state is the `seen_dbs` set paired with the optional
`merged_df` (absent until first assigned, as in Python).  In the iteration
whose db sits at index 0, both sub-branches read `dbs_will_be_merged[1]`
(lines 857-864 and 1029-1035), which raises an IndexError when only one
source is available. -/
def mergeStep (dbs : List Str) (st : List Str × Option (List Str))
    (db : Str) : Except MergeErr (List Str × Option (List Str)) :=
  if db ∈ st.1 then .ok st
  else if dbs.indexOf db = 0 then
    match dbs[1]? with
    | none => .error .idxErr
    | some d1 => .ok (db :: d1 :: st.1, some [db, d1])
  else
    match st.2 with
    | none => .error .nameErr
    | some m => .ok (db :: st.1, some (m ++ [db]))

def mergeLoop (dbs : List Str) :
    List Str → List Str × Option (List Str) →
      Except MergeErr (List Str × Option (List Str))
  | [], st => .ok st
  | db :: rest, st =>
    match mergeStep dbs st db with
    | .error e => .error e
    | .ok st2 => mergeLoop dbs rest st2

/-- The fold of `merge_all` over the available sources, returning the list of
dataframes merged in order, or the runtime error the code raises: after the
loop, `merged_df` is read unconditionally (line 1242), which raises a
NameError when no iteration ever assigned it. -/
def merge_all_run (dbs : List Str) : Except MergeErr (List Str) :=
  match mergeLoop dbs dbs ([], none) with
  | .error e => .error e
  | .ok st =>
    match st.2 with
    | none => .error .nameErr
    | some m => .ok m

theorem indexOf_cons_self_my {α : Type} [BEq α] [LawfulBEq α] (a : α)
    (l : List α) : List.indexOf a (a :: l) = 0 := by
  simp [List.indexOf, List.findIdx_cons]

theorem mergeLoop_some (dbs : List Str) (h2 : 2 ≤ dbs.length) :
    ∀ (rest seen m : List Str), ∃ seen2 m2,
      mergeLoop dbs rest (seen, some m) = .ok (seen2, some m2) := by
  intro rest
  induction rest with
  | nil => exact fun seen m => ⟨seen, m, rfl⟩
  | cons db rest ih =>
    intro seen m
    by_cases hseen : db ∈ seen
    · have hstep : mergeStep dbs (seen, some m) db = .ok (seen, some m) := by
        simp [mergeStep, hseen]
      rw [mergeLoop, hstep]
      exact ih seen m
    · by_cases hidx : dbs.indexOf db = 0
      · have h1 : 1 < dbs.length := by omega
        have hstep : mergeStep dbs (seen, some m) db
            = .ok (db :: dbs[1] :: seen, some [db, dbs[1]]) := by
          simp [mergeStep, hseen, hidx, List.getElem?_eq_getElem h1]
        rw [mergeLoop, hstep]
        exact ih _ _
      · have hstep : mergeStep dbs (seen, some m) db
            = .ok (db :: seen, some (m ++ [db])) := by
          simp [mergeStep, hseen, hidx]
        rw [mergeLoop, hstep]
        exact ih _ _

/-- Claim C2 (amended): `merge_all` does not degrade gracefully.  With zero
available datasets the final read of `merged_df` fails (NameError) instead
of returning an empty dataset; with exactly one available dataset the first
loop iteration indexes `dbs_will_be_merged[1]` and fails (IndexError)
instead of returning the dataset unchanged; only with at least two
available datasets does the merge complete. -/
theorem claim_C2_amended (dbs : List Str) :
    (dbs.length = 0 → merge_all_run dbs = .error .nameErr)
    ∧ (dbs.length = 1 → merge_all_run dbs = .error .idxErr)
    ∧ (2 ≤ dbs.length → ∃ m, merge_all_run dbs = .ok m) := by
  refine ⟨?_, ?_, ?_⟩
  · intro h
    rcases List.length_eq_zero.mp h with rfl
    rfl
  · intro h
    rcases List.length_eq_one.mp h with ⟨d, rfl⟩
    have hstep : mergeStep [d] ([], none) d = .error .idxErr := by
      simp [mergeStep, indexOf_cons_self_my]
    unfold merge_all_run
    rw [mergeLoop, hstep]
  · intro h2
    rcases dbs with _ | ⟨d0, rest0⟩
    · simp at h2
    rcases rest0 with _ | ⟨d1, rest⟩
    · simp at h2
    have hstep : mergeStep (d0 :: d1 :: rest) ([], none) d0
        = .ok ([d0, d1], some [d0, d1]) := by
      simp [mergeStep, indexOf_cons_self_my]
    unfold merge_all_run
    rw [mergeLoop, hstep]
    obtain ⟨seen2, m2, hloop⟩ := mergeLoop_some (d0 :: d1 :: rest)
      (by simp) (d1 :: rest) [d0, d1] [d0, d1]
    refine ⟨m2, ?_⟩
    simp [hloop]

theorem claim_C2_witness :
    2 ≤ (availableDbs true true false).length
    ∧ ∃ m, merge_all_run (availableDbs true true false) = .ok m :=
  ⟨by decide, (claim_C2_amended (availableDbs true true false)).2.2 (by decide)⟩

/-- Claim C2 counterexample: with zero available sources `merge_all` raises
(unbound `merged_df`) rather than returning an empty merged dataset, and
with exactly one available source it raises (index 1 out of range) rather
than returning that dataset unchanged. -/
theorem claim_C2_counterexample :
    merge_all_run (availableDbs false false false) = .error .nameErr
    ∧ merge_all_run (availableDbs true false false) = .error .idxErr :=
  ⟨rfl, rfl⟩

/-! ### Field projection configuration of `intact_process` (C7) -/

/-- The `default_field_names` table of `intact_process`
(`src/bccb/ppi_adapter.py:242-248`). -/
def intact_default_field_names : List (Str × Str) :=
  [("source".data, "source".data),
   ("pubmeds".data, "pubmed_ids".data),
   ("mi_score".data, "intact_score".data),
   ("methods".data, "method".data),
   ("interaction_types".data, "interaction_type".data)]

/-- The selected fields in the default configuration (all members of
`IntactEdgeField`, lines 32-37, in declaration order). -/
def intact_selected_fields : List Str :=
  ["source".data, "pubmeds".data, "mi_score".data, "methods".data,
   "interaction_types".data]

/-- Dictionary lookup where a later assignment overwrites an earlier one
(Python dict assignment order). -/
def dlookup (m : List (Str × Str)) (k : Str) : Option Str :=
  (m.reverse.find? (fun e => e.1 = k)).map (fun e => e.2)

/-- Construction of `intact_field_new_names`
(`src/bccb/ppi_adapter.py:250-273`): a truthy (non-empty)
`rename_selected_fields` whose length differs from the selected fields
raises; otherwise each selected field is paired with its user name (zip) or
its default canonical name, and the two identity columns are then assigned
the fixed names `uniprot_a`/`uniprot_b`.  An absent (`None`) or empty
mapping is falsy in Python and takes the default branch. -/
def intact_field_map (selected : List Str) (rename : Option (List Str)) :
    Except Unit (List (Str × Str)) :=
  match rename with
  | some ns =>
    if ns.isEmpty then
      .ok ((selected.filterMap (fun f =>
        (dlookup intact_default_field_names f).map (fun d => (f, d))))
        ++ [("id_a".data, "uniprot_a".data), ("id_b".data, "uniprot_b".data)])
    else if selected.length ≠ ns.length then .error ()
    else
      .ok ((selected.zip ns)
        ++ [("id_a".data, "uniprot_a".data), ("id_b".data, "uniprot_b".data)])
  | none =>
    .ok ((selected.filterMap (fun f =>
      (dlookup intact_default_field_names f).map (fun d => (f, d))))
      ++ [("id_a".data, "uniprot_a".data), ("id_b".data, "uniprot_b".data)])

/-- Claim C7 (amended): for a NON-empty supplied rename mapping, a length
mismatch with the selected fields raises (the generic `Exception` of the code,
the ConfigurationError of the error taxonomy), and on a length match the construction
succeeds with the two endpoint identifier columns force-mapped to
`uniprot_a`/`uniprot_b` regardless of the user mapping.  An EMPTY supplied
mapping is falsy in Python and silently falls back to the defaults instead
of raising. -/
theorem claim_C7_amended (selected : List Str) (ns : List Str)
    (hne : ns ≠ []) :
    (selected.length ≠ ns.length →
      intact_field_map selected (some ns) = .error ())
    ∧ (selected.length = ns.length →
      ∃ m, intact_field_map selected (some ns) = .ok m
        ∧ dlookup m ("id_a".data) = some ("uniprot_a".data)
        ∧ dlookup m ("id_b".data) = some ("uniprot_b".data)) := by
  have hemp : ns.isEmpty = false := by
    rcases ns with _ | _
    · exact absurd rfl hne
    · rfl
  constructor
  · intro hlen
    show (if ns.isEmpty = true then _ else
      if selected.length ≠ ns.length then Except.error ()
      else Except.ok (selected.zip ns ++ [("id_a".data, "uniprot_a".data),
        ("id_b".data, "uniprot_b".data)])) = Except.error ()
    rw [hemp]
    simp only [Bool.false_eq_true, if_false]
    rw [if_pos hlen]
  · intro hlen
    show ∃ m, (if ns.isEmpty = true then _ else
      if selected.length ≠ ns.length then Except.error ()
      else Except.ok (selected.zip ns ++ [("id_a".data, "uniprot_a".data),
        ("id_b".data, "uniprot_b".data)])) = Except.ok m ∧ _
    rw [hemp]
    simp only [Bool.false_eq_true, if_false]
    rw [if_neg (fun hc => hc hlen)]
    refine ⟨_, rfl, ?_, ?_⟩
    · unfold dlookup
      rw [show (selected.zip ns ++ [("id_a".data, "uniprot_a".data),
          ("id_b".data, "uniprot_b".data)]).reverse
          = ("id_b".data, "uniprot_b".data) :: ("id_a".data,
            "uniprot_a".data) :: (selected.zip ns).reverse from by simp]
      rw [List.find?_cons_of_neg _ (by decide),
        List.find?_cons_of_pos _ (by decide)]
      rfl
    · unfold dlookup
      rw [show (selected.zip ns ++ [("id_a".data, "uniprot_a".data),
          ("id_b".data, "uniprot_b".data)]).reverse
          = ("id_b".data, "uniprot_b".data) :: ("id_a".data,
            "uniprot_a".data) :: (selected.zip ns).reverse from by simp]
      rw [List.find?_cons_of_pos _ (by decide)]
      rfl

theorem claim_C7_witness :
    (["s".data, "p".data, "sc".data, "m".data, "t".data] : List Str) ≠ []
    ∧ intact_selected_fields.length
      = (["s".data, "p".data, "sc".data, "m".data, "t".data] : List Str).length
    ∧ ∃ m, intact_field_map intact_selected_fields
        (some ["s".data, "p".data, "sc".data, "m".data, "t".data]) = .ok m
      ∧ dlookup m ("id_a".data) = some ("uniprot_a".data)
      ∧ dlookup m ("id_b".data) = some ("uniprot_b".data) :=
  ⟨by decide, by decide,
    (claim_C7_amended intact_selected_fields
      ["s".data, "p".data, "sc".data, "m".data, "t".data]
      (by decide)).2 (by decide)⟩

/-- Claim C7 counterexample: an EMPTY rename mapping is supplied and its
length (0) differs from the number of selected fields (5), yet the call
does not raise: the Python truthiness test sends the empty dict to the
default branch, which succeeds. -/
theorem claim_C7_counterexample :
    ([] : List Str).length ≠ intact_selected_fields.length
    ∧ intact_field_map intact_selected_fields (some ([] : List Str))
      = .ok [("source".data, "source".data),
        ("pubmeds".data, "pubmed_ids".data),
        ("mi_score".data, "intact_score".data),
        ("methods".data, "method".data),
        ("interaction_types".data, "interaction_type".data),
        ("id_a".data, "uniprot_a".data), ("id_b".data, "uniprot_b".data)] :=
  ⟨by decide, rfl⟩

/-- Claim C8 (amended): the merged citation cell carries exactly the union
of the `|`-token sets of the two sides; no token is filtered out at merge
time (empty or placeholder tokens included). -/
theorem claim_C8_amended (x y : Val) :
    tokenSet (merge_pubmed_ids x y) = tokenSet x ∪ tokenSet y :=
  merge_pubmed_ids_tokenSet x y

/-- Claim C8 counterexample: a placeholder token `unassigned` supplied by
one side survives into the merged citation value; `merge_pubmed_ids`
discards nothing. -/
theorem claim_C8_counterexample :
    merge_pubmed_ids (Val.s ("1".data)) (Val.s ("unassigned".data))
      = Val.s ("1|unassigned".data)
    ∧ "unassigned".data ∈ valTokens (merge_pubmed_ids (Val.s ("1".data))
        (Val.s ("unassigned".data))) := by
  decide

/-! ### Edge projection (`PPI.get_ppi_edges`, lines 1281-1303) (C9) -/

/-- A property value of an edge: a plain string or an ordered list of
strings obtained by splitting a `"|"`-joined value. -/
inductive PropVal where
  | str (s : Str)
  | list (l : List Str)
deriving DecidableEq, Repr

/-- Model of `str(k).replace(" ", "_").lower()` applied to a property key. -/
def normKey (k : Str) : Str :=
  (k.map (fun c => if c = ' ' then '_' else c)).map Char.toLower

/-- The single-quote character, written by code point to keep it apart from
the caret that replaces it. -/
def quoteChar : Char := Char.ofNat 39

/-- Model of the Python quote-to-caret replacement on one character. -/
def caretRepl (c : Char) : Char :=
  if c = quoteChar then '^' else c

/-- The property map built for one merged row by `get_ppi_edges`
(lines 1287-1299): the two identifier columns are deleted, entries whose
`str()` form is `nan` are skipped, `"|"`-containing strings are
caret-escaped and split into ordered lists, and every other value is stored
as its caret-escaped string form under the normalized key. -/
def rowProps (row : List (Str × Val)) : List (Str × PropVal) :=
  (row.filter (fun e => e.1 ≠ "uniprot_a".data
      ∧ e.1 ≠ "uniprot_b".data)).filterMap
    (fun e =>
      if strOfVal e.2 = "nan".data then none
      else match e.2 with
        | .s w =>
          if '|' ∈ w then
            some (normKey e.1, .list (splitPipe (w.map caretRepl)))
          else some (normKey e.1, .str ((strOfVal e.2).map caretRepl))
        | _ => some (normKey e.1, .str ((strOfVal e.2).map caretRepl)))

theorem no_quote_caretRepl (w : Str) : quoteChar ∉ w.map caretRepl := by
  intro hmem
  rcases List.mem_map.mp hmem with ⟨c, _, hc⟩
  by_cases hcq : c = quoteChar
  · rw [caretRepl, if_pos hcq] at hc
    exact absurd hc (by decide)
  · rw [caretRepl, if_neg hcq] at hc
    exact hcq hc

theorem caretRepl_eq_of_no_caret {w v : Str} (h : w.map caretRepl = v)
    (hv : ('^' : Char) ∉ v) : w = v := by
  induction w generalizing v with
  | nil =>
    rw [List.map_nil] at h
    exact h
  | cons c cs ih =>
    rcases v with _ | ⟨d, ds⟩
    · simp at h
    · rw [List.map_cons] at h
      rcases List.cons.injEq _ _ _ _ ▸ h with ⟨h1, h2⟩
      have hcq : c ≠ quoteChar := by
        intro hq
        rw [caretRepl, if_pos hq] at h1
        exact hv (h1 ▸ List.mem_cons_self d ds)
      rw [caretRepl, if_neg hcq] at h1
      have hds : ('^' : Char) ∉ ds := fun hmem =>
        hv (List.mem_cons_of_mem d hmem)
      rw [h1, ih h2 hds]

/-- Every output entry of the property map comes from one non-identifier,
non-NaN column of the row, with the stated shape. -/
theorem rowProps_out {row : List (Str × Val)} {y : Str × PropVal}
    (hy : y ∈ rowProps row) :
    ∃ e, e ∈ row ∧ e.1 ≠ "uniprot_a".data ∧ e.1 ≠ "uniprot_b".data
      ∧ y.1 = normKey e.1
      ∧ strOfVal e.2 ≠ "nan".data
      ∧ ((∃ w, e.2 = Val.s w ∧ '|' ∈ w
            ∧ y.2 = PropVal.list (splitPipe (w.map caretRepl)))
         ∨ y.2 = PropVal.str ((strOfVal e.2).map caretRepl)) := by
  rcases List.mem_filterMap.mp hy with ⟨e, he, hfe⟩
  have hef := List.mem_filter.mp he
  obtain ⟨hna, hnb⟩ : e.1 ≠ "uniprot_a".data ∧ e.1 ≠ "uniprot_b".data := by
    simpa using hef.2
  refine ⟨e, hef.1, hna, hnb, ?_⟩
  by_cases hnan : strOfVal e.2 = "nan".data
  · rw [if_pos hnan] at hfe
    exact absurd hfe (by simp)
  · rw [if_neg hnan] at hfe
    rcases hv : e.2 with w | q | _
    · rw [hv] at hfe hnan
      dsimp only at hfe
      by_cases hp : '|' ∈ w
      · rw [if_pos hp] at hfe
        rcases Option.some.inj hfe with rfl
        exact ⟨rfl, hnan, Or.inl ⟨w, rfl, hp, rfl⟩⟩
      · rw [if_neg hp] at hfe
        rcases Option.some.inj hfe with rfl
        exact ⟨rfl, hnan, Or.inr rfl⟩
    · rw [hv] at hfe hnan
      dsimp only at hfe
      rcases Option.some.inj hfe with rfl
      exact ⟨rfl, hnan, Or.inr rfl⟩
    · rw [hv] at hfe hnan
      dsimp only at hfe
      rcases Option.some.inj hfe with rfl
      exact ⟨rfl, hnan, Or.inr rfl⟩

/-- Claim C9: for every merged row (whose column names are already
normalized, as in the merged frame), the edge property map contains no
entry for the two pair-identifier columns, no NaN value (no entry whose
value is the string `nan`), represents every `"|"`-containing string value
as the ordered list of its caret-escaped tokens, and stores every other
kept value as a caret-escaped string containing no single-quote
character. -/
theorem claim_C9 (row : List (Str × Val))
    (hkeys : ∀ e ∈ row, normKey e.1 = e.1) :
    ("uniprot_a".data ∉ (rowProps row).map (fun e => e.1))
    ∧ ("uniprot_b".data ∉ (rowProps row).map (fun e => e.1))
    ∧ (∀ e ∈ rowProps row, e.2 ≠ PropVal.str ("nan".data))
    ∧ (∀ e ∈ rowProps row, ∀ s, e.2 = PropVal.str s → quoteChar ∉ s)
    ∧ (∀ k w, (k, Val.s w) ∈ row → k ≠ "uniprot_a".data →
        k ≠ "uniprot_b".data → '|' ∈ w →
        (normKey k, PropVal.list (splitPipe (w.map caretRepl))) ∈ rowProps row)
    ∧ (∀ e ∈ rowProps row, ∀ l, e.2 = PropVal.list l →
        ∃ k w, (k, Val.s w) ∈ row ∧ '|' ∈ w ∧ e.1 = normKey k
          ∧ l = splitPipe (w.map caretRepl)) := by
  refine ⟨?_, ?_, ?_, ?_, ?_, ?_⟩
  · intro hmem
    rcases List.mem_map.mp hmem with ⟨y, hy, hk⟩
    rcases rowProps_out hy with ⟨e, he, hna, _, hkey, _, _⟩
    rw [hkey, hkeys e he] at hk
    exact hna hk
  · intro hmem
    rcases List.mem_map.mp hmem with ⟨y, hy, hk⟩
    rcases rowProps_out hy with ⟨e, he, _, hnb, hkey, _, _⟩
    rw [hkey, hkeys e he] at hk
    exact hnb hk
  · intro y hy hcontra
    rcases rowProps_out hy with ⟨e, _, _, _, _, hnan, hshape⟩
    rcases hshape with ⟨w, _, _, hlist⟩ | hstr
    · rw [hlist] at hcontra
      exact absurd hcontra (by simp)
    · rw [hstr] at hcontra
      have h2 : (strOfVal e.2).map caretRepl = "nan".data :=
        PropVal.str.inj hcontra
      exact hnan (caretRepl_eq_of_no_caret h2 (by decide))
  · intro y hy s hs
    rcases rowProps_out hy with ⟨e, _, _, _, _, _, hshape⟩
    rcases hshape with ⟨w, _, _, hlist⟩ | hstr
    · rw [hlist] at hs
      exact absurd hs (by simp)
    · rw [hstr] at hs
      rcases PropVal.str.inj hs with rfl
      exact no_quote_caretRepl _
  · intro k w hkw hka hkb hp
    refine List.mem_filterMap.mpr ⟨(k, Val.s w), ?_, ?_⟩
    · refine List.mem_filter.mpr ⟨hkw, ?_⟩
      simpa using ⟨hka, hkb⟩
    · have hwn : ¬(strOfVal (Val.s w) = "nan".data) := by
        show ¬(w = "nan".data)
        intro hcontra
        rw [hcontra] at hp
        exact absurd hp (by decide)
      rw [if_neg hwn]
      simp only [if_pos hp]
  · intro y hy l hl
    rcases rowProps_out hy with ⟨e, he, _, _, hkey, _, hshape⟩
    rcases hshape with ⟨w, hw, hp, hlist⟩ | hstr
    · rw [hlist] at hl
      rcases PropVal.list.inj hl with rfl
      exact ⟨e.1, w, by rw [← hw]; exact he, hp, hkey, rfl⟩
    · rw [hstr] at hl
      exact absurd hl (by simp)

theorem claim_C9_witness :
    (∀ e ∈ ([(("uniprot_a".data : Str), Val.s ("P1".data)),
        ("uniprot_b".data, Val.s ("P2".data)),
        ("source".data, Val.s ("IntAct|BioGRID".data)),
        ("method".data, Val.nan)] : List (Str × Val)), normKey e.1 = e.1)
    ∧ "uniprot_a".data ∉ (rowProps [(("uniprot_a".data : Str),
        Val.s ("P1".data)), ("uniprot_b".data, Val.s ("P2".data)),
        ("source".data, Val.s ("IntAct|BioGRID".data)),
        ("method".data, Val.nan)]).map (fun e => e.1) :=
  ⟨by decide,
    (claim_C9 [(("uniprot_a".data : Str), Val.s ("P1".data)),
      ("uniprot_b".data, Val.s ("P2".data)),
      ("source".data, Val.s ("IntAct|BioGRID".data)),
      ("method".data, Val.nan)] (by decide)).1⟩

/-! ### The deduplication stage of `string_process` (C10) -/

inductive StrErr where
  | unboundLocal
deriving DecidableEq, Repr

/-- A row of the projected STRING dataframe (default field selection:
source and the two scores, plus the mapped uniprot pair). -/
structure GRec where
  id_a : Option Str
  id_b : Option Str
  source : Val
  combined : Val
  physical : Val
deriving DecidableEq, Repr

def gkey (r : GRec) : Str × Str := (r.id_a.getD [], r.id_b.getD [])

def descBeforeG (a b : GRec) : Bool :=
  match scoreKey a.combined, scoreKey b.combined with
  | _, none => true
  | none, some _ => false
  | some p, some q => q ≤ p

def insertDescG (x : GRec) : List GRec → List GRec
  | [] => [x]
  | y :: ys => if descBeforeG x y then x :: y :: ys else y :: insertDescG x ys

/-- The `frozenset` of the row slice
`[uniprot_a, uniprot_b, combined_score]` (lines 768-778). -/
def gRowKeySet (r : GRec) : Finset Val :=
  {Val.s (r.id_a.getD []), Val.s (r.id_b.getD []), r.combined}

/-- The deduplication stage of `PPI.string_process`
(`src/bccb/ppi_adapter.py:755-784`).  When `combined_score` is among the
keys of the field map (the selected fields plus the two uniprot columns),
it sorts descending on `combined_score`, drops rows with a missing pair id,
keeps the first row per ordered pair (`drop_duplicates(keep="first")`), and
drops reciprocal rows sharing the same
`frozenset {uniprot_a, uniprot_b, combined_score}`.  When `combined_score`
is NOT selected, the `else` branch (lines 779-784) reads `string_df_unique`
before any assignment to it, so the call raises an UnboundLocalError
instead of producing a dataframe. -/
def string_process_dedup (selected : List Str) (rows : List GRec) :
    Except StrErr (List GRec) :=
  if "combined_score".data ∈ selected
      ++ ["uniprot_a".data, "uniprot_b".data] then
    .ok (keepFirstBy gRowKeySet
      (keepFirstBy gkey
        ((rows.foldr insertDescG []).filter
          (fun r => r.id_a.isSome && r.id_b.isSome))))
  else .error .unboundLocal

/-- Claim C10: `string_process` succeeds only when `combined_score` is among
the selected fields; without it the branch that should deduplicate reads
its result variable before assignment, so the call always fails instead of
producing a deduplicated dataset, and with it the stage always produces a
result. -/
theorem claim_C10 (selected : List Str) (rows : List GRec) :
    ("combined_score".data ∉ selected →
      string_process_dedup selected rows = .error .unboundLocal)
    ∧ ("combined_score".data ∈ selected →
      ∃ out, string_process_dedup selected rows = .ok out) := by
  constructor
  · intro h
    have hnot : "combined_score".data ∉ selected
        ++ ["uniprot_a".data, "uniprot_b".data] := by
      intro hmem
      rcases List.mem_append.mp hmem with h1 | h1
      · exact h h1
      · revert h1
        decide
    unfold string_process_dedup
    rw [if_neg hnot]
  · intro h
    unfold string_process_dedup
    rw [if_pos (List.mem_append_left _ h)]
    exact ⟨_, rfl⟩

theorem claim_C10_witness :
    ("combined_score".data ∉ (["source".data] : List Str)
      ∧ string_process_dedup ["source".data] [] = .error .unboundLocal)
    ∧ ("combined_score".data
        ∈ (["source".data, "combined_score".data] : List Str)
      ∧ ∃ out, string_process_dedup ["source".data, "combined_score".data] []
          = .ok out) :=
  ⟨⟨by decide, (claim_C10 ["source".data] []).1 (by decide)⟩,
   ⟨by decide, (claim_C10 ["source".data, "combined_score".data] []).2
     (by decide)⟩⟩
